import Mathlib

/-!
Verification of the `sgmlish` reference-expansion engine (`src/entities.rs`),
attribute display (`src/lib.rs`) and parser policy helpers (`src/parser/parser.rs`).

Texts are modelled as `List Char`; byte offsets are recovered with `Char.utf8Size`,
matching Rust's byte-indexed `str` slices. Rust's `Cow<str>` is modelled by the
two-constructor `Cow` type below, and the fallible expansion result by `EResult`.
The scanning loop of `expand_entities_with` is given explicit fuel; the public
entry points run it with fuel `text.length + 1`, and termination theorems show
this fuel is never exhausted for the real matchers and nonempty triggers.
-/

namespace Sgmlish

/-- Modelled from the spec: `src/parser/raw.rs` is not under `src/`; per spec §4.1 a
name token is "a name-start character followed by zero or more name characters, per
SGML name-token rules": a name-start character is a letter. -/
def is_name_start_char (c : Char) : Bool :=
  c.isAlpha

/-- Modelled from the spec: name characters per SGML name-token rules are letters,
digits, `.` and `-` (evidenced by the entity names `bar.x` and `qu-ux` accepted in
`src/entities.rs` tests). -/
def is_name_char (c : Char) : Bool :=
  c.isAlphanum || c == '.' || c == '-'

/-- Modelled from the spec: the `name` recognizer of `src/parser/raw.rs`: one
name-start character followed by zero or more name characters. Returns the
remaining input paired with the matched token, `none` when no name starts here. -/
def name (input : List Char) : Option (List Char × List Char) :=
  match input with
  | c :: rest =>
    if is_name_start_char c then
      some (rest.dropWhile is_name_char, c :: rest.takeWhile is_name_char)
    else none
  | [] => none

/-- Mirror of `EntityRef` in `src/entities.rs`. -/
inductive EntityRef where
  | entity (nm : List Char)
  | chr (c : Char)
  deriving DecidableEq

/-- Mirror of Rust `Cow<str>`: either a borrowed view of the original input or a
newly allocated owned buffer. -/
inductive Cow where
  | borrowed (s : List Char)
  | owned (s : List Char)
  deriving DecidableEq

def Cow.toList : Cow → List Char
  | .borrowed s => s
  | .owned s => s

def Cow.isBorrowed : Cow → Bool
  | .borrowed _ => true
  | .owned _ => false

/-- Mirror of Rust `Range<usize>` as used by `EntityError.position` (byte offsets). -/
structure ByteRange where
  start : Nat
  stop : Nat
  deriving DecidableEq

/-- Mirror of `EntityError` in `src/entities.rs`. -/
structure EntityError where
  entity : List Char
  position : ByteRange
  deriving DecidableEq

/-- Result of an expansion: error or a `Cow` text. -/
inductive EResult where
  | err (e : EntityError)
  | ok (c : Cow)
  deriving DecidableEq

/-- A reference matcher in the style of `nom`: on success it yields the remaining
input and the recognized reference. -/
abbrev Matcher := List Char → Option (List Char × EntityRef)

/-- A lookup closure `FnMut(&str) -> Option<T>` with the replacement as text. -/
abbrev Lookup := List Char → Option (List Char)

/-- Byte length of a text, the Lean image of Rust's `str::len`. -/
def utf8Len (l : List Char) : Nat :=
  (l.map Char.utf8Size).sum

/-- Mirror of `nom::character::complete::digit1`: one or more ASCII digits. -/
def digit1 (input : List Char) : Option (List Char × List Char) :=
  match input.takeWhile Char.isDigit with
  | [] => none
  | ds => some (input.dropWhile Char.isDigit, ds)

/-- Numeric value of a decimal digit string. -/
def decValCore (l : List Char) : Nat :=
  l.foldl (fun a c => 10 * a + (c.toNat - '0'.toNat)) 0

/-- Mirror of `code.parse::<u32>().ok()` on a digit string: overflow yields `none`. -/
def parseU32Dec (l : List Char) : Option Nat :=
  if decValCore l < 2 ^ 32 then some (decValCore l) else none

def isHexDigitB (c : Char) : Bool :=
  c.isDigit || ('a' ≤ c && c ≤ 'f') || ('A' ≤ c && c ≤ 'F')

def hexDigitVal (c : Char) : Nat :=
  if c.isDigit then c.toNat - '0'.toNat
  else if 'a' ≤ c && c ≤ 'f' then c.toNat - 'a'.toNat + 10
  else c.toNat - 'A'.toNat + 10

/-- Numeric value of a hex digit string. -/
def hexValCore (l : List Char) : Nat :=
  l.foldl (fun a c => 16 * a + hexDigitVal c) 0

/-- Mirror of `u32::from_str_radix(code, 16).ok()`: fails on an empty string, a
non-hex-digit character, or overflow past `u32`. -/
def fromStrRadix16 (l : List Char) : Option Nat :=
  if !l.isEmpty && l.all isHexDigitB then
    if hexValCore l < 2 ^ 32 then some (hexValCore l) else none
  else none

/-- Mirror of `char::from_u32` success: not a surrogate and at most `0x10FFFF`. -/
def isValidCharCode (v : Nat) : Bool :=
  v < 0xD800 || (0xDFFF < v && v < 0x110000)

/-- Mirror of the final `map` of `char_ref`: a parsed code that is a valid scalar
value becomes a character; anything else falls back to a named reference carrying
the raw consumed text. -/
def mkCharOrEntity (raw : List Char) (code : Option Nat) (rest : List Char) :
    Option (List Char × EntityRef) :=
  match code with
  | some v =>
    if isValidCharCode v then some (rest, .chr (Char.ofNat v))
    else some (rest, .entity raw)
  | none => some (rest, .entity raw)

/-- Mirror of `char_ref` in `src/entities.rs`: `#` followed by either a decimal
digit run or `x` plus a run of name characters parsed as hex. The consumed raw
text (including `#`/`#x`) is kept for the named-reference fallback. -/
def char_ref (input : List Char) : Option (List Char × EntityRef) :=
  match input with
  | c :: rest =>
    if c = '#' then
      match digit1 rest with
      | some (rest', ds) => mkCharOrEntity ('#' :: ds) (parseU32Dec ds) rest'
      | none =>
        match rest with
        | c2 :: rest2 =>
          if c2 = 'x' then
            match rest2.takeWhile is_name_char with
            | [] => none
            | hx => mkCharOrEntity ('#' :: 'x' :: hx) (fromStrRadix16 hx)
                (rest2.dropWhile is_name_char)
          else none
        | [] => none
    else none
  | [] => none

/-- Mirror of `entity_ref` in `src/entities.rs`: an optional leading `#` followed
by a name; the recognized span (with the `#`) is the entity name. -/
def entity_ref (input : List Char) : Option (List Char × EntityRef) :=
  match input with
  | c :: rest =>
    if c = '#' then (name rest).map fun p => (p.1, .entity ('#' :: p.2))
    else (name (c :: rest)).map fun p => (p.1, .entity p.2)
  | [] => none

/-- Mirror of `entity_or_char_ref`: try `char_ref`, then `entity_ref`. -/
def entity_or_char_ref (input : List Char) : Option (List Char × EntityRef) :=
  match char_ref input with
  | some r => some r
  | none => entity_ref input

/-- Mirror of `terminated(matcher, opt(tag(";")))`: after a successful match, one
`;` is consumed when present. -/
def withOptSemicolon (m : Matcher) : Matcher := fun input =>
  (m input).map fun p =>
    match p.1 with
    | c :: t => if c = ';' then (t, p.2) else p
    | [] => p

/-- Mirror of `str::find(&str)`: position (here: character index; byte offsets
are recovered separately) of the first occurrence of `needle` as a contiguous
sub-list. -/
def findSub (needle : List Char) : List Char → Option Nat
  | [] => if needle.isPrefixOf ([] : List Char) then some 0 else none
  | a :: t =>
    if needle.isPrefixOf (a :: t) then some 0
    else (findSub needle t).map (· + 1)

/-- Fueled image of the `while let Some(position) = remainder.find(prefix)` loop in
`expand_entities_with` (`src/entities.rs`). `none` means the fuel was exhausted;
the loop state is the accumulated output and the unscanned remainder. -/
def expandLoop (text pre : List Char) (m : Matcher) (f : Lookup) :
    Nat → List Char → List Char → Option EResult
  | 0, _, _ => none
  | fuel + 1, out, remainder =>
    match findSub pre remainder with
    | none =>
      if remainder.length = text.length then some (.ok (.borrowed text))
      else some (.ok (.owned (out ++ remainder)))
    | some p =>
      match withOptSemicolon m ((remainder.drop p).drop pre.length) with
      | some (after, .entity nm) =>
        match f nm with
        | some rep =>
          expandLoop text pre m f fuel (out ++ remainder.take p ++ rep) after
        | none =>
          some (.err ⟨nm, ⟨utf8Len text - utf8Len (remainder.drop p),
            utf8Len text - utf8Len after⟩⟩)
      | some (after, .chr c) =>
        expandLoop text pre m f fuel (out ++ remainder.take p ++ [c]) after
      | none =>
        expandLoop text pre m f fuel (out ++ remainder.take p ++ pre)
          ((remainder.drop p).drop pre.length)

/-- Mirror of `expand_entities_with`: run the scan loop from the whole text with
fuel `text.length + 1` (shown sufficient by the termination theorems below). -/
def expand_entities_with (text pre : List Char) (m : Matcher) (f : Lookup) :
    Option EResult :=
  expandLoop text pre m f (text.length + 1) [] text

/-- Mirror of `expand_entities`: trigger `&`, grammar `entity_or_char_ref`. -/
def expand_entities (text : List Char) (f : Lookup) : Option EResult :=
  expand_entities_with text ['&'] entity_or_char_ref f

/-- Mirror of `expand_parameter_entities`: trigger `%`, grammar `entity_ref` only. -/
def expand_parameter_entities (text : List Char) (f : Lookup) : Option EResult :=
  expand_entities_with text ['%'] entity_ref f

/-- Mirror of `expand_characters`: entity expansion with an always-`None` lookup. -/
def expand_characters (text : List Char) : Option EResult :=
  expand_entities text (fun _ => none)

/-- Mirror of `is_sgml_whitespace` in `src/lib.rs`: space, tab, CR, LF. -/
def is_sgml_whitespace (c : Char) : Bool :=
  c == ' ' || c == '\t' || c == '\r' || c == '\n'

/-- Modelled from the spec: `src/data.rs` is not under `src/`. Per spec §3, the
two-variant character-data type: `CData` is the final/resolved variant (entities
expanded; literal `&` must be re-escaped on display), `RcData` the
not-yet-resolved variant (displayed with `&` untouched). -/
inductive Data where
  | CData (s : List Char)
  | RcData (s : List Char)
  deriving DecidableEq

/-- Modelled from the spec: the text payload of a character-data value
(`Data::as_str`). -/
def Data.asList : Data → List Char
  | .CData s => s
  | .RcData s => s

/-- Modelled from the spec: the "final/verbatim" flag governing display escaping
(`Data::verbatim`); true exactly for the final/resolved (`CData`) variant. -/
def Data.verbatim : Data → Bool
  | .CData _ => true
  | .RcData _ => false

/-- Mirror of the `SgmlEvent::Attribute` arm of `impl Display for SgmlEvent` in
`src/lib.rs` (lines 109–129): write the name; with no value stop there; otherwise
pick `"` quoting when it needs no escaping, then `'` quoting, and finally `"`
quoting with `"` escaped as `&#34;` and — for verbatim values containing `&` —
`&` escaped as `&#38;`. -/
def display_attribute (nm : List Char) (value : Option Data) : List Char :=
  match value with
  | none => nm
  | some data =>
    let v := data.asList
    let escape_ampersand := data.verbatim && v.contains '&'
    if !escape_ampersand && !v.contains '"' then
      nm ++ '=' :: '"' :: v ++ ['"']
    else if !escape_ampersand && !v.contains '\'' then
      nm ++ '=' :: '\'' :: v ++ ['\'']
    else
      nm ++ '=' :: '"' ::
        (v.foldr (fun c acc =>
          (if c == '"' then "&#34;".toList
           else if escape_ampersand && c == '&' then "&#38;".toList
           else [c]) ++ acc) []) ++ ['"']

/-- Mirror of `NameNormalization` in `src/parser/parser.rs`. -/
inductive NameNormalization where
  | Unchanged
  | ToLowercase
  | ToUppercase
  deriving DecidableEq

/-- Mirror of `NameNormalization::normalize` (`src/parser/parser.rs` lines
116–130): lowercase/uppercase the name only when it contains an ASCII character
of the opposite case (which turns the `Cow` into an owned buffer); otherwise the
`Cow` is returned untouched. -/
def NameNormalization.normalize : NameNormalization → Cow → Cow
  | .ToLowercase, nm =>
    if nm.toList.any Char.isUpper then .owned (nm.toList.map Char.toLower) else nm
  | .ToUppercase, nm =>
    if nm.toList.any Char.isLower then .owned (nm.toList.map Char.toUpper) else nm
  | .Unchanged, nm => nm

/-- Modelled from the spec: `src/marked_sections.rs` is not under `src/`; per spec
§2/§4.2 the status resolver deals in the keywords `CDATA`, `RCDATA`, `IGNORE`,
`INCLUDE`. -/
inductive MarkedSectionStatus where
  | CData
  | RcData
  | Ignore
  | Include
  deriving DecidableEq

/-- Modelled from the spec: `FromStr` for `MarkedSectionStatus`
(`status_keywords.parse()`), accepting exactly one status keyword. -/
def MarkedSectionStatus.fromStr (s : List Char) : Option MarkedSectionStatus :=
  if s = "CDATA".toList then some .CData
  else if s = "RCDATA".toList then some .RcData
  else if s = "IGNORE".toList then some .Ignore
  else if s = "INCLUDE".toList then some .Include
  else none

/-- Words of a keyword string split on SGML whitespace (empty runs dropped). -/
def splitWsAux : List Char → List Char → List (List Char)
  | [], acc => if acc.isEmpty then [] else [acc.reverse]
  | c :: t, acc =>
    if is_sgml_whitespace c then
      if acc.isEmpty then splitWsAux t [] else acc.reverse :: splitWsAux t []
    else splitWsAux t (c :: acc)

/-- Modelled from the spec: `MarkedSectionStatus::from_keywords` combines a
whitespace-separated keyword sequence; the exact precedence is owned by the
resolver collaborator (spec §4.2, out of scope); modelled as the
highest-precedence keyword with `Ignore > CData > RcData > Include`, rejecting
any unknown keyword. Unused by the claims, which concern only the strict mode. -/
def MarkedSectionStatus.from_keywords (s : List Char) : Option MarkedSectionStatus :=
  (splitWsAux s []).foldl
    (fun acc w =>
      match acc, MarkedSectionStatus.fromStr w with
      | some a, some b =>
        some (if priority b ≥ priority a then b else a)
      | _, _ => none)
    (some .Include)
where
  priority : MarkedSectionStatus → Nat
    | .Ignore => 3
    | .CData => 2
    | .RcData => 1
    | .Include => 0

/-- Mirror of `MarkedSectionHandling` in `src/parser/parser.rs`. -/
inductive MarkedSectionHandling where
  | KeepUnmodified
  | AcceptOnlyCharacterData
  | ExpandAll
  deriving DecidableEq

/-- Mirror of `MarkedSectionHandling::parse_keywords` (`src/parser/parser.rs`
lines 151–168): in `AcceptOnlyCharacterData` mode only a status-keyword string
that parses as the single keyword `CDATA` or `RCDATA` is accepted; the other
modes delegate to `from_keywords`. -/
def MarkedSectionHandling.parse_keywords :
    MarkedSectionHandling → List Char → Option MarkedSectionStatus
  | .AcceptOnlyCharacterData, status_keywords =>
    match MarkedSectionStatus.fromStr status_keywords with
    | some MarkedSectionStatus.CData => some .CData
    | some MarkedSectionStatus.RcData => some .RcData
    | _ => none
  | _, status_keywords => MarkedSectionStatus.from_keywords status_keywords

/-- Lowercase hex digit for a value below 16. -/
def hexDigitChar (n : Nat) : Char :=
  if n < 10 then Char.ofNat ('0'.toNat + n) else Char.ofNat ('a'.toNat + (n - 10))

/-- Fueled lowercase-hex printer (most significant digit first). -/
def natToHexAux : Nat → Nat → List Char
  | 0, _ => []
  | fuel + 1, n =>
    if n < 16 then [hexDigitChar n]
    else natToHexAux fuel (n / 16) ++ [hexDigitChar (n % 16)]

/-- Lowercase hex representation of a natural number. -/
def natToHex (n : Nat) : List Char :=
  natToHexAux (n + 1) n

/-- A matcher that never reports more remaining input than it was given; every
`nom` parser in the source has this property. -/
def MatcherLe (m : Matcher) : Prop :=
  ∀ s r v, m s = some (r, v) → r.length ≤ s.length

/-- Decidable statement that a suffix does not start a match: wherever the
trigger character heads this suffix, the reference grammar fails right after it. -/
def noRefAfterTrigger (m : Matcher) (c : Char) (s : List Char) : Bool :=
  match s with
  | a :: rest => if a = c then (m rest).isNone else true
  | [] => true

/-- The lookup of claim C2's second example: `foo ↦ x`, everything else
(including `bar`) undefined. -/
def c2_lookup : Lookup := fun n =>
  if n = "foo".toList then some "x".toList else none

/-! ### Helper lemmas -/

theorem toLower_eq_of_not_isUpper (c : Char) (h : c.isUpper = false) :
    c.toLower = c := by
  simp only [Char.toLower, Char.isUpper, Char.toNat] at *
  rw [if_neg]
  intro hcond
  obtain ⟨h1, h2⟩ := hcond
  rw [Bool.and_eq_false_iff] at h
  have e1 : (UInt32.toBitVec 65).toNat = 65 := rfl
  have e2 : (UInt32.toBitVec 90).toNat = 90 := rfl
  rcases h with h | h <;>
    simp only [decide_eq_false_iff_not, UInt32.le_def, BitVec.le_def, not_le, e1, e2] at h <;>
    simp only [UInt32.toNat] at h1 h2 <;> omega

theorem toUpper_eq_of_not_isLower (c : Char) (h : c.isLower = false) :
    c.toUpper = c := by
  simp only [Char.toUpper, Char.isLower, Char.toNat] at *
  rw [if_neg]
  intro hcond
  obtain ⟨h1, h2⟩ := hcond
  rw [Bool.and_eq_false_iff] at h
  have e1 : (UInt32.toBitVec 97).toNat = 97 := rfl
  have e2 : (UInt32.toBitVec 122).toNat = 122 := rfl
  rcases h with h | h <;>
    simp only [decide_eq_false_iff_not, UInt32.le_def, BitVec.le_def, not_le, e1, e2] at h <;>
    simp only [UInt32.toNat] at h1 h2 <;> omega

theorem map_toLower_of_no_upper (l : List Char) (h : l.any Char.isUpper = false) :
    l.map Char.toLower = l := by
  induction l with
  | nil => rfl
  | cons c t ih =>
    simp only [List.any_cons, Bool.or_eq_false_iff] at h
    simp [toLower_eq_of_not_isUpper c h.1, ih h.2]

theorem map_toUpper_of_no_lower (l : List Char) (h : l.any Char.isLower = false) :
    l.map Char.toUpper = l := by
  induction l with
  | nil => rfl
  | cons c t ih =>
    simp only [List.any_cons, Bool.or_eq_false_iff] at h
    simp [toUpper_eq_of_not_isLower c h.1, ih h.2]

theorem findSub_single_none_iff (c : Char) (l : List Char) :
    findSub [c] l = none ↔ c ∉ l := by
  induction l with
  | nil => simp [findSub, List.isPrefixOf]
  | cons a t ih =>
    simp only [findSub, List.isPrefixOf, Bool.and_true, List.mem_cons]
    by_cases hca : c = a
    · subst hca; simp
    · have hba : (c == a) = false := by simp [hca]
      simp [hba, hca, ih]

theorem findSub_some (needle l : List Char) (p : Nat) (h : findSub needle l = some p) :
    needle.isPrefixOf (l.drop p) = true := by
  induction l generalizing p with
  | nil =>
    simp only [findSub] at h
    split at h
    · rename_i hcond
      cases h
      simpa using hcond
    · cases h
  | cons a t ih =>
    simp only [findSub] at h
    split at h
    · rename_i hcond
      cases h
      simpa using hcond
    · rcases hq : findSub needle t with - | q
      · rw [hq] at h; cases h
      · rw [hq] at h
        simp only [Option.map_some'] at h
        cases h
        simpa using ih q hq

/-- Basic arithmetic consequence of a successful `findSub` on a nonempty needle:
the hit lies strictly inside the haystack. -/
theorem findSub_some_lt (needle l : List Char) (p : Nat) (hne : needle ≠ [])
    (h : findSub needle l = some p) : p + needle.length ≤ l.length := by
  have hp := findSub_some needle l p h
  rw [ List.isPrefixOf_iff_prefix] at hp
  have := hp.length_le
  rw [List.length_drop] at this
  have hnn : 1 ≤ needle.length := by
    cases needle with
    | nil => exact absurd rfl hne
    | cons a t => simp
  omega

theorem name_le (input r tk : List Char) (h : name input = some (r, tk)) :
    r.length < input.length := by
  cases input with
  | nil => cases h
  | cons c rest =>
    simp only [name] at h
    split at h
    · cases h
      have := (List.dropWhile_suffix (l := rest) is_name_char).length_le
      simp only [List.length_cons]
      omega
    · cases h

theorem matcherLe_entity_ref : MatcherLe entity_ref := by
  intro s r v h
  cases s with
  | nil => cases h
  | cons a rest =>
    simp only [entity_ref] at h
    split at h
    · rcases hn : name rest with - | p
      · rw [hn] at h; cases h
      · rw [hn] at h
        simp only [Option.map_some'] at h
        cases h
        have := name_le rest p.1 p.2 (by rw [hn])
        simp only [List.length_cons]
        omega
    · rcases hn : name (a :: rest) with - | p
      · rw [hn] at h; cases h
      · rw [hn] at h
        simp only [Option.map_some'] at h
        cases h
        exact le_of_lt (name_le _ _ _ (by rw [hn]))

theorem mkCharOrEntity_rest (raw : List Char) (code : Option Nat) (rest r : List Char)
    (v : EntityRef) (h : mkCharOrEntity raw code rest = some (r, v)) : r = rest := by
  unfold mkCharOrEntity at h
  rcases code with - | n
  · cases h; rfl
  · simp only at h
    split at h <;> cases h <;> rfl

theorem matcherLe_char_ref : MatcherLe char_ref := by
  intro s r v h
  cases s with
  | nil => cases h
  | cons a rest =>
    simp only [char_ref] at h
    split at h
    · rcases hd : digit1 rest with - | p
      · rw [hd] at h
        cases rest with
        | nil => cases h
        | cons c2 rest2 =>
          simp only at h
          split at h
          · rcases hw : rest2.takeWhile is_name_char with - | ⟨c0, t0⟩ <;> rw [hw] at h
            · cases h
            · have hr := mkCharOrEntity_rest _ _ _ _ _ h
              subst hr
              have := (List.dropWhile_suffix (l := rest2) is_name_char).length_le
              simp only [List.length_cons]
              omega
          · cases h
      · rw [hd] at h
        have hr := mkCharOrEntity_rest _ _ _ _ _ h
        subst hr
        unfold digit1 at hd
        split at hd
        · cases hd
        · cases hd
          have := (List.dropWhile_suffix (l := rest) Char.isDigit).length_le
          simp only [List.length_cons]
          omega
    · cases h

theorem matcherLe_entity_or_char_ref : MatcherLe entity_or_char_ref := by
  intro s r v h
  unfold entity_or_char_ref at h
  rcases hc : char_ref s with - | p
  · rw [hc] at h
    exact matcherLe_entity_ref s r v h
  · rw [hc] at h
    cases h
    exact matcherLe_char_ref s r v hc

theorem matcherLe_withOptSemicolon (m : Matcher) (hm : MatcherLe m) :
    MatcherLe (withOptSemicolon m) := by
  intro s r v h
  unfold withOptSemicolon at h
  rcases hms : m s with - | ⟨rest, w⟩
  · rw [hms] at h; cases h
  · rw [hms] at h
    simp only [Option.map_some'] at h
    have hle := hm s rest w hms
    cases rest with
    | nil =>
      simp only at h
      cases h
      exact hle
    | cons c t =>
      simp only at h
      split at h <;> cases h
      · simp only [List.length_cons] at hle
        omega
      · exact hle

/-! ### Loop lemmas: termination, ownership, identity on unmatched input -/

theorem expandLoop_isSome (text pre : List Char) (m : Matcher) (f : Lookup)
    (hpre : pre ≠ []) (hm : MatcherLe m) :
    ∀ fuel remainder out, remainder.length < fuel →
      (expandLoop text pre m f fuel out remainder).isSome = true := by
  intro fuel
  induction fuel with
  | zero => intro remainder out h; omega
  | succ n ih =>
    intro remainder out h
    rcases hfind : findSub pre remainder with - | p
    · simp only [expandLoop, hfind]
      split <;> rfl
    · have hlt := findSub_some_lt pre remainder p hpre hfind
      have hpl : 1 ≤ pre.length := by
        cases pre with
        | nil => exact absurd rfl hpre
        | cons a t => simp
      have hdl : ((remainder.drop p).drop pre.length).length =
          remainder.length - p - pre.length := by
        simp only [List.length_drop]
      rcases hmres : withOptSemicolon m ((remainder.drop p).drop pre.length)
        with - | ⟨after, ref⟩
      · simp only [expandLoop, hfind, hmres]
        exact ih _ _ (by omega)
      · have hafter := matcherLe_withOptSemicolon m hm _ _ _ hmres
        cases ref with
        | entity nm =>
          rcases hf : f nm with - | rep
          · simp only [expandLoop, hfind, hmres, hf]
            rfl
          · simp only [expandLoop, hfind, hmres, hf]
            exact ih _ _ (by omega)
        | chr c =>
          simp only [expandLoop, hfind, hmres]
          exact ih _ _ (by omega)

theorem expandLoop_ok_not_borrowed (text pre : List Char) (m : Matcher) (f : Lookup)
    (hm : MatcherLe m) :
    ∀ fuel remainder out r, remainder.length < text.length →
      expandLoop text pre m f fuel out remainder = some (.ok r) →
      r.isBorrowed = false := by
  intro fuel
  induction fuel with
  | zero => intro remainder out r hlen h; cases h
  | succ n ih =>
    intro remainder out r hlen h
    rcases hfind : findSub pre remainder with - | p
    · simp only [expandLoop, hfind] at h
      rw [if_neg (by omega)] at h
      simp only [Option.some.injEq, EResult.ok.injEq] at h
      subst h
      rfl
    · have hdl : ((remainder.drop p).drop pre.length).length ≤ remainder.length := by
        simp only [List.length_drop]
        omega
      rcases hmres : withOptSemicolon m ((remainder.drop p).drop pre.length)
        with - | ⟨after, ref⟩
      · simp only [expandLoop, hfind, hmres] at h
        exact ih _ _ _ (by omega) h
      · have hafter := matcherLe_withOptSemicolon m hm _ _ _ hmres
        cases ref with
        | entity nm =>
          rcases hf : f nm with - | rep
          · simp only [expandLoop, hfind, hmres, hf] at h
            cases h
          · simp only [expandLoop, hfind, hmres, hf] at h
            exact ih _ _ _ (by omega) h
        | chr c =>
          simp only [expandLoop, hfind, hmres] at h
          exact ih _ _ _ (by omega) h

theorem expand_no_trigger (text : List Char) (c : Char) (m : Matcher) (f : Lookup)
    (h : c ∉ text) :
    expand_entities_with text [c] m f = some (.ok (.borrowed text)) := by
  have hf : findSub [c] text = none := (findSub_single_none_iff c text).2 h
  unfold expand_entities_with
  simp only [expandLoop, hf]
  simp

theorem expand_trigger_owned (text : List Char) (c : Char) (m : Matcher) (f : Lookup)
    (hm : MatcherLe m) (h : c ∈ text) :
    ∀ r, expand_entities_with text [c] m f = some (.ok r) → r.isBorrowed = false := by
  intro r hr
  unfold expand_entities_with at hr
  rcases hfind : findSub [c] text with - | p
  · rw [findSub_single_none_iff] at hfind
    exact absurd h hfind
  · have hlt := findSub_some_lt [c] text p (by simp) hfind
    simp only [List.length_cons, List.length_nil] at hlt
    have hdl : ((text.drop p).drop [c].length).length = text.length - p - 1 := by
      simp only [List.length_drop, List.length_cons, List.length_nil]
    rcases hmres : withOptSemicolon m ((text.drop p).drop [c].length)
      with - | ⟨after, ref⟩
    · simp only [expandLoop, hfind, hmres] at hr
      exact expandLoop_ok_not_borrowed text [c] m f hm _ _ _ _ (by omega) hr
    · have hafter := matcherLe_withOptSemicolon m hm _ _ _ hmres
      cases ref with
      | entity nm =>
        rcases hfn : f nm with - | rep
        · simp only [expandLoop, hfind, hmres, hfn] at hr
          cases hr
        · simp only [expandLoop, hfind, hmres, hfn] at hr
          exact expandLoop_ok_not_borrowed text [c] m f hm _ _ _ _ (by omega) hr
      | chr ch =>
        simp only [expandLoop, hfind, hmres] at hr
        exact expandLoop_ok_not_borrowed text [c] m f hm _ _ _ _ (by omega) hr

theorem expandLoop_all_fail (text : List Char) (c : Char) (m : Matcher) (f : Lookup)
    (H : text.tails.all (noRefAfterTrigger m c) = true) :
    ∀ fuel out remainder, remainder <:+ text → remainder.length < fuel →
      remainder.length < text.length →
      expandLoop text [c] m f fuel out remainder =
        some (.ok (.owned (out ++ remainder))) := by
  intro fuel
  induction fuel with
  | zero => intro out remainder _ h _; omega
  | succ n ih =>
    intro out remainder hsub hfuel hlen
    rcases hfind : findSub [c] remainder with - | p
    · simp only [expandLoop, hfind]
      rw [if_neg (by omega)]
    · have hpfx := findSub_some [c] remainder p hfind
      rw [ List.isPrefixOf_iff_prefix] at hpfx
      obtain ⟨t, ht⟩ := hpfx
      have hcand : remainder.drop p = c :: t := by simpa using ht.symm
      have hmem : (c :: t) ∈ text.tails := by
        rw [List.mem_tails]
        exact (hcand ▸ List.drop_suffix p remainder).trans hsub
      have hfail : m t = none := by
        have hh := List.all_eq_true.1 H _ hmem
        simp only [noRefAfterTrigger, if_pos rfl] at hh
        exact Option.isNone_iff_eq_none.1 hh
      have hwfail : withOptSemicolon m ((remainder.drop p).drop [c].length) = none := by
        have h1 : (remainder.drop p).drop [c].length = t := by
          rw [hcand]; rfl
        rw [h1]
        simp [withOptSemicolon, hfail]
      have hclen : (remainder.drop p).length = remainder.length - p :=
        List.length_drop p remainder
      have htlen : t.length + 1 = remainder.length - p := by
        rw [← hclen, hcand]
        simp
      simp only [expandLoop, hfind, hwfail]
      have h1 : (remainder.drop p).drop [c].length = t := by
        rw [hcand]; rfl
      rw [h1]
      have hrec := ih (out ++ remainder.take p ++ [c]) t
        ((List.suffix_cons c t).trans ((hcand ▸ List.drop_suffix p remainder).trans hsub))
        (by omega) (by omega)
      rw [hrec]
      have hjoin : out ++ remainder.take p ++ [c] ++ t = out ++ remainder := by
        have : remainder.take p ++ (c :: t) = remainder := by
          rw [← hcand, List.take_append_drop]
        calc out ++ remainder.take p ++ [c] ++ t
            = out ++ (remainder.take p ++ (c :: t)) := by simp
          _ = out ++ remainder := by rw [this]
      rw [hjoin]

/-! ### Hex-printer lemmas for claim C6 -/

theorem hexDigitChar_facts : ∀ m, m < 16 →
    (hexDigitVal (hexDigitChar m) = m ∧ isHexDigitB (hexDigitChar m) = true ∧
     is_name_char (hexDigitChar m) = true) := by decide

theorem natToHexAux_spec : ∀ fuel n, n < fuel →
    natToHexAux fuel n ≠ [] ∧
    (∀ c ∈ natToHexAux fuel n, isHexDigitB c = true ∧ is_name_char c = true) ∧
    hexValCore (natToHexAux fuel n) = n := by
  intro fuel
  induction fuel with
  | zero => intro n h; omega
  | succ k ih =>
    intro n h
    by_cases h16 : n < 16
    · simp only [natToHexAux, if_pos h16]
      obtain ⟨hv, hh, hn⟩ := hexDigitChar_facts n h16
      refine ⟨by simp, ?_, ?_⟩
      · intro c hc
        simp only [List.mem_singleton] at hc
        subst hc
        exact ⟨hh, hn⟩
      · simp [hexValCore, hv]
    · simp only [natToHexAux, if_neg h16]
      have h0 : 0 < n := by omega
      have hlt := Nat.div_lt_self h0 (by norm_num : 1 < 16)
      have hdiv : n / 16 < k := by omega
      obtain ⟨hne, hmem, hval⟩ := ih (n / 16) hdiv
      obtain ⟨hv, hh, hn⟩ := hexDigitChar_facts (n % 16) (Nat.mod_lt n (by norm_num))
      refine ⟨by simp, ?_, ?_⟩
      · intro c hc
        rw [List.mem_append] at hc
        rcases hc with hc | hc
        · exact hmem c hc
        · simp only [List.mem_singleton] at hc
          subst hc
          exact ⟨hh, hn⟩
      · have happ : hexValCore (natToHexAux k (n / 16) ++ [hexDigitChar (n % 16)]) =
            16 * hexValCore (natToHexAux k (n / 16)) +
              hexDigitVal (hexDigitChar (n % 16)) := by
          simp [hexValCore, List.foldl_append]
        rw [happ, hval, hv]
        omega

theorem takeWhile_name_semi (l : List Char) (h : ∀ c ∈ l, is_name_char c = true) :
    (l ++ [';']).takeWhile is_name_char = l ∧
    (l ++ [';']).dropWhile is_name_char = [';'] := by
  induction l with
  | nil => constructor <;> decide
  | cons c t ih =>
    have hc : is_name_char c = true := h c (by simp)
    have ht : ∀ a ∈ t, is_name_char a = true := fun a ha => h a (by simp [ha])
    obtain ⟨h1, h2⟩ := ih ht
    constructor
    · simp [List.takeWhile_cons, hc, h1]
    · simp [List.dropWhile_cons, hc, h2]

theorem char_ref_hex (hex : List Char) (v : Nat)
    (hne : hex ≠ [])
    (hmem : ∀ c ∈ hex, isHexDigitB c = true ∧ is_name_char c = true)
    (hval : hexValCore hex = v)
    (hv : isValidCharCode v = true)
    (hlt : v < 2 ^ 32) :
    char_ref ('#' :: 'x' :: (hex ++ [';'])) = some ([';'], .chr (Char.ofNat v)) := by
  have htw := takeWhile_name_semi hex (fun c hc => (hmem c hc).2)
  have hxd : 'x'.isDigit = false := by decide
  have hdig : ('x' :: (hex ++ [';'])).takeWhile Char.isDigit = [] := by
    rw [List.takeWhile_cons, hxd]
    rfl
  have hd1 : digit1 ('x' :: (hex ++ [';'])) = none := by
    unfold digit1
    rw [hdig]
  have hfsr : fromStrRadix16 hex = some v := by
    unfold fromStrRadix16
    have hall : hex.all isHexDigitB = true :=
      List.all_eq_true.2 (fun c hc => (hmem c hc).1)
    have hni : hex.isEmpty = false := by
      cases hex with
      | nil => exact absurd rfl hne
      | cons a t => rfl
    rw [hni, hall]
    simp only [Bool.not_false, Bool.and_self, if_true]
    rw [hval, if_pos hlt]
  have step : char_ref ('#' :: 'x' :: (hex ++ [';'])) =
      match (hex ++ [';']).takeWhile is_name_char with
      | [] => none
      | hx => mkCharOrEntity ('#' :: 'x' :: hx) (fromStrRadix16 hx)
          ((hex ++ [';']).dropWhile is_name_char) := by
    simp [char_ref, hd1]
  rw [step, htw.1]
  cases hex with
  | nil => exact absurd rfl hne
  | cons c0 t0 =>
    rw [htw.2]
    show mkCharOrEntity ('#' :: 'x' :: (c0 :: t0)) (fromStrRadix16 (c0 :: t0)) [';'] =
      some ([';'], EntityRef.chr (Char.ofNat v))
    rw [hfsr]
    simp [mkCharOrEntity, hv]

/-! ### Claim theorems: concrete evaluations -/

/-- Claim C2: a named reference whose lookup returns `None` fails immediately
with an `EntityError` carrying the captured name (with any leading `#`) and the
byte range of the matched span in the original input:
`expand_characters "foo&#x110000;bar"` fails with name `#x110000` and range
3..13, and `expand_entities "test &foo;&bar;"` (with `foo ↦ x`, `bar ↦ None`)
fails with name `bar` and range 10..15. -/
theorem expand_error_name_and_span :
    expand_characters "foo&#x110000;bar".toList =
      some (.err ⟨"#x110000".toList, ⟨3, 13⟩⟩) ∧
    expand_entities "test &foo;&bar;".toList c2_lookup =
      some (.err ⟨"bar".toList, ⟨10, 15⟩⟩) := by
  constructor <;> decide

/-- Claim C3: in-range numeric character references resolve to the corresponding
Unicode scalar values, with the `;` terminator optional. -/
theorem expand_characters_numeric_refs :
    expand_characters "&#60;hello&#44; world&#33;&#62;".toList =
      some (.ok (.owned "<hello, world!>".toList)) ∧
    expand_characters "fo&#x6f; bar &#xFeFf;".toList =
      some (.ok (.owned "foo bar ﻿".toList)) ∧
    expand_characters "fo&#x6f bar &#xFeFf".toList =
      some (.ok (.owned "foo bar ﻿".toList)) := by
  refine ⟨by decide, by decide, by decide⟩

/-- Claim C4: parameter-entity expansion is scoped to `%` references: for every
lookup closure, `&name;` references are left untouched (the text `foo &bar;`,
which has no `%`, is returned borrowed, so the lookup cannot have been invoked),
and `%#32;` is not recognized as a character reference (the text is returned
unchanged, again for every lookup closure). -/
theorem expand_parameter_entities_scope :
    (∀ f : Lookup, expand_parameter_entities "foo &bar;".toList f =
      some (.ok (.borrowed "foo &bar;".toList))) ∧
    (∀ f : Lookup, expand_parameter_entities "foo %#32;".toList f =
      some (.ok (.owned "foo %#32;".toList))) :=
  ⟨fun _ => rfl, fun _ => rfl⟩

/-- Claim C7: attribute-value display contract: a final/resolved (`CData`) value
containing `&` and `"` but not `'` renders quoted with `"`, with `"` escaped as
`&#34;` and `&` escaped as `&#38;`; the not-yet-resolved (`RcData`) value with
the same content renders with `&` literal (quoted with `'` here, the quote
chosen to avoid escaping); the quote is preferred in the order `"`, then `'`,
then escaped `"`; and `&` is escaped only for the final/resolved variant and
only when the text contains `&`. -/
theorem display_attribute_escaping :
    display_attribute "key".toList (some (.CData "a&o\"".toList)) =
      "key=\"a&#38;o&#34;\"".toList ∧
    display_attribute "key".toList (some (.RcData "a&o\"".toList)) =
      "key='a&o\"'".toList ∧
    display_attribute "key".toList (some (.CData "value".toList)) =
      "key=\"value\"".toList ∧
    display_attribute "key".toList (some (.CData "va\"lue".toList)) =
      "key='va\"lue'".toList ∧
    display_attribute "key".toList (some (.CData "va\"lu'e".toList)) =
      "key=\"va&#34;lu'e\"".toList ∧
    display_attribute "key".toList (some (.CData "a&o".toList)) =
      "key=\"a&#38;o\"".toList ∧
    display_attribute "key".toList (some (.RcData "a&o".toList)) =
      "key=\"a&o\"".toList := by
  refine ⟨by decide, by decide, by decide, by decide, by decide, by decide, by decide⟩

/-- Claim C8: in `AcceptOnlyCharacterData` mode, `parse_keywords` returns `some`
exactly when the status-keyword string is the single keyword `CDATA` or
`RCDATA`; any other keyword string, including multi-keyword combinations such as
`CDATA CDATA`, is rejected with `none`. -/
theorem parse_keywords_strict_mode :
    (∀ (s : List Char) (st : MarkedSectionStatus),
      MarkedSectionHandling.AcceptOnlyCharacterData.parse_keywords s = some st ↔
        ((s = "CDATA".toList ∧ st = .CData) ∨ (s = "RCDATA".toList ∧ st = .RcData))) ∧
    MarkedSectionHandling.AcceptOnlyCharacterData.parse_keywords
      "CDATA CDATA".toList = none := by
  refine ⟨?_, by decide⟩
  intro s st
  constructor
  · intro h
    simp only [MarkedSectionHandling.parse_keywords] at h
    rcases heq : MarkedSectionStatus.fromStr s with - | st2
    · rw [heq] at h; exact absurd h (by simp)
    · rw [heq] at h
      simp only [MarkedSectionStatus.fromStr] at heq
      split_ifs at heq with hc hr hi hn <;> cases heq
      · cases h; exact Or.inl ⟨hc, rfl⟩
      · cases h; exact Or.inr ⟨hr, rfl⟩
      · exact absurd h (by simp)
      · exact absurd h (by simp)
  · rintro (⟨rfl, rfl⟩ | ⟨rfl, rfl⟩) <;> decide

/-- Claim C9: name normalization maps a name to its ASCII lowercase (mode
`ToLowercase`) or uppercase (mode `ToUppercase`) folding; the fold allocates
(produces an owned value) exactly when the name contains a character of the
opposite case, and otherwise — and always in mode `Unchanged` — the name is
returned as the very same value. -/
theorem normalize_case_folding : ∀ (nm : Cow),
    NameNormalization.Unchanged.normalize nm = nm ∧
    (NameNormalization.ToLowercase.normalize nm).toList = nm.toList.map Char.toLower ∧
    (nm.toList.any Char.isUpper = false → NameNormalization.ToLowercase.normalize nm = nm) ∧
    (nm.toList.any Char.isUpper = true →
      NameNormalization.ToLowercase.normalize nm = .owned (nm.toList.map Char.toLower)) ∧
    (NameNormalization.ToUppercase.normalize nm).toList = nm.toList.map Char.toUpper ∧
    (nm.toList.any Char.isLower = false → NameNormalization.ToUppercase.normalize nm = nm) ∧
    (nm.toList.any Char.isLower = true →
      NameNormalization.ToUppercase.normalize nm = .owned (nm.toList.map Char.toUpper)) := by
  intro nm
  refine ⟨rfl, ?_, ?_, ?_, ?_, ?_, ?_⟩
  · simp only [NameNormalization.normalize]
    split
    · rfl
    · rename_i h
      simp only [Bool.not_eq_true] at h
      exact (map_toLower_of_no_upper _ h).symm
  · intro h
    simp only [NameNormalization.normalize]
    rw [if_neg (by simp [h])]
  · intro h
    simp only [NameNormalization.normalize]
    rw [if_pos h]
  · simp only [NameNormalization.normalize]
    split
    · rfl
    · rename_i h
      simp only [Bool.not_eq_true] at h
      exact (map_toUpper_of_no_lower _ h).symm
  · intro h
    simp only [NameNormalization.normalize]
    rw [if_neg (by simp [h])]
  · intro h
    simp only [NameNormalization.normalize]
    rw [if_pos h]

/-- Witness for `normalize_case_folding` at the borrowed name `AbC`. -/
theorem normalize_case_folding_witness :
    ("AbC".toList.any Char.isUpper = true ∧
      NameNormalization.ToLowercase.normalize (.borrowed "AbC".toList) =
        .owned ("AbC".toList.map Char.toLower)) ∧
    ("abc".toList.any Char.isUpper = false ∧
      NameNormalization.ToLowercase.normalize (.borrowed "abc".toList) =
        .borrowed "abc".toList) :=
  ⟨⟨by decide, (normalize_case_folding (.borrowed "AbC".toList)).2.2.2.1 (by decide)⟩,
   ⟨by decide, (normalize_case_folding (.borrowed "abc".toList)).2.2.1 (by decide)⟩⟩

/-- Claim C1: for every input text and every lookup closure, entity expansion
(trigger `&`) and parameter-entity expansion (trigger `%`) return a borrowed
view of the original input when the trigger character does not occur in the
input, and whenever the trigger does occur, any successful result is an owned
buffer — even when the content is byte-identical to the input. -/
theorem expand_zero_copy : ∀ (text : List Char) (f : Lookup),
    ('&' ∉ text → expand_entities text f = some (.ok (.borrowed text))) ∧
    ('&' ∈ text → ∀ r, expand_entities text f = some (.ok r) → r.isBorrowed = false) ∧
    ('%' ∉ text → expand_parameter_entities text f = some (.ok (.borrowed text))) ∧
    ('%' ∈ text → ∀ r, expand_parameter_entities text f = some (.ok r) →
      r.isBorrowed = false) := by
  intro text f
  exact ⟨expand_no_trigger text '&' entity_or_char_ref f,
    fun h => expand_trigger_owned text '&' entity_or_char_ref f
      matcherLe_entity_or_char_ref h,
    expand_no_trigger text '%' entity_ref f,
    fun h => expand_trigger_owned text '%' entity_ref f matcherLe_entity_ref h⟩

/-- Witness for `expand_zero_copy`: a trigger-free text comes back borrowed, and
a text with a resolved reference comes back owned even after substitution. -/
theorem expand_zero_copy_witness :
    expand_entities "abc".toList (fun _ => none) =
      some (.ok (.borrowed "abc".toList)) ∧
    (Cow.owned "aX".toList).isBorrowed = false :=
  ⟨(expand_zero_copy "abc".toList (fun _ => none)).1 (by decide),
   (expand_zero_copy "a&b".toList (fun _ => some "X".toList)).2.1 (by decide)
     (Cow.owned "aX".toList) (by decide)⟩

/-- Claim C5: when the input contains the trigger `&` but no occurrence of `&`
is followed by a match of the reference grammar, expansion succeeds and returns
an (owned) text byte-for-byte equal to the input: each unmatched trigger is
re-emitted literally and scanning resumes one character past it. -/
theorem expand_unmatched_identity : ∀ (text : List Char) (f : Lookup),
    '&' ∈ text →
    text.tails.all (noRefAfterTrigger entity_or_char_ref '&') = true →
    expand_entities text f = some (.ok (.owned text)) := by
  intro text f hmem H
  unfold expand_entities expand_entities_with
  rcases hfind : findSub ['&'] text with - | p
  · rw [findSub_single_none_iff] at hfind
    exact absurd hmem hfind
  · have hpfx := findSub_some ['&'] text p hfind
    rw [ List.isPrefixOf_iff_prefix] at hpfx
    obtain ⟨t, ht⟩ := hpfx
    have hcand : text.drop p = '&' :: t := by simpa using ht.symm
    have hmemt : ('&' :: t) ∈ text.tails := by
      rw [List.mem_tails]
      exact hcand ▸ List.drop_suffix p text
    have hfail : entity_or_char_ref t = none := by
      have hh := List.all_eq_true.1 H _ hmemt
      simp only [noRefAfterTrigger, if_pos rfl] at hh
      exact Option.isNone_iff_eq_none.1 hh
    have h1 : (text.drop p).drop (['&'].length) = t := by
      rw [hcand]; rfl
    have hwfail : withOptSemicolon entity_or_char_ref ((text.drop p).drop
        (['&'].length)) = none := by
      rw [h1]
      simp [withOptSemicolon, hfail]
    have hplen : p + 1 ≤ text.length := by
      have hlc := congrArg List.length hcand
      simp only [List.length_drop, List.length_cons] at hlc
      omega
    have htlen : t.length + 1 = text.length - p := by
      have hlc := congrArg List.length hcand
      simp only [List.length_drop, List.length_cons] at hlc
      omega
    simp only [expandLoop, hfind, hwfail]
    rw [h1]
    have hrec := expandLoop_all_fail text '&' entity_or_char_ref f H text.length
      ([] ++ text.take p ++ ['&']) t
      ((List.suffix_cons '&' t).trans (hcand ▸ List.drop_suffix p text))
      (by omega) (by omega)
    rw [hrec]
    have hjoin : [] ++ text.take p ++ ['&'] ++ t = text := by
      have hsplit : text.take p ++ ('&' :: t) = text := by
        rw [← hcand, List.take_append_drop]
      calc ([] : List Char) ++ text.take p ++ ['&'] ++ t
          = text.take p ++ ('&' :: t) := by simp
        _ = text := hsplit
    rw [hjoin]

/-- Witness for `expand_unmatched_identity` at `foo&&;bar`, one of the inputs
named by the claim. -/
theorem expand_unmatched_identity_witness :
    '&' ∈ "foo&&;bar".toList ∧
    "foo&&;bar".toList.tails.all (noRefAfterTrigger entity_or_char_ref '&') = true ∧
    expand_entities "foo&&;bar".toList (fun _ => none) =
      some (.ok (.owned "foo&&;bar".toList)) :=
  ⟨by decide, by decide,
    expand_unmatched_identity "foo&&;bar".toList (fun _ => none) (by decide) (by decide)⟩

/-- Claim C10 (amended): the scan loop of `expand_entities_with` terminates for
every finite input whenever the trigger prefix is nonempty and the matcher never
reports more remaining input than it was given (true of all the parsers in the
source); fuel `text.length + 1` is never exhausted, because every iteration
strictly shrinks the unscanned remainder by at least the prefix length. -/
theorem expand_total_nonempty_trigger (text pre : List Char) (m : Matcher)
    (f : Lookup) (hpre : pre ≠ []) (hm : MatcherLe m) :
    (expand_entities_with text pre m f).isSome = true :=
  expandLoop_isSome text pre m f hpre hm (text.length + 1) text [] (by omega)

/-- Witness for `expand_total_nonempty_trigger` with the real `&` trigger and
grammar. -/
theorem expand_total_nonempty_trigger_witness :
    (['&'] ≠ ([] : List Char)) ∧
    (expand_entities_with "a&b".toList ['&'] entity_or_char_ref
      (fun _ => none)).isSome = true :=
  ⟨by decide,
   expand_total_nonempty_trigger "a&b".toList ['&'] entity_or_char_ref
     (fun _ => none) (by decide) matcherLe_entity_or_char_ref⟩

/-- Counterexample to claim C10 as stated (totality "for every prefix"): with
the empty prefix the loop makes no progress on an unmatchable character, so
even 100 iterations (far beyond the bound the claimed per-iteration decrease
would imply for a 1-character input) do not finish — the Rust loop never exits
for this input. -/
theorem expand_empty_trigger_diverges :
    expand_entities_with "?".toList [] entity_or_char_ref (fun _ => none) = none ∧
    expandLoop "?".toList [] entity_or_char_ref (fun _ => none) 100 [] "?".toList
      = none := by
  constructor <;> decide

theorem expandLoop_step_none (text pre : List Char) (m : Matcher) (f : Lookup)
    (fuel : Nat) (out remainder : List Char)
    (hfind : findSub pre remainder = none) :
    expandLoop text pre m f (fuel + 1) out remainder =
      if remainder.length = text.length then some (.ok (.borrowed text))
      else some (.ok (.owned (out ++ remainder))) := by
  simp only [expandLoop, hfind]

theorem expandLoop_step_chr (text pre : List Char) (m : Matcher) (f : Lookup)
    (fuel : Nat) (out remainder : List Char) (p : Nat) (after : List Char) (c : Char)
    (hfind : findSub pre remainder = some p)
    (hm : withOptSemicolon m ((remainder.drop p).drop pre.length) =
      some (after, .chr c)) :
    expandLoop text pre m f (fuel + 1) out remainder =
      expandLoop text pre m f fuel (out ++ remainder.take p ++ [c]) after := by
  simp only [expandLoop, hfind, hm]

/-- Claim C6 (amended): the character-reference grammar accepts the hex form
only when it is introduced by a lowercase `x` after `#`: for every valid Unicode
scalar value `v`, the lowercase reference `&#x<hex(v)>;` resolves directly to
that character for every lookup closure (the result does not depend on the
lookup); an uppercase `X` form such as `&#X6F;` is instead treated as the named
reference `#X6F` and resolved through the lookup. -/
theorem char_ref_hex_lowercase_only (v : Nat) (hv : isValidCharCode v = true) :
    (∀ f : Lookup, expand_entities ('&' :: '#' :: 'x' :: (natToHex v ++ [';'])) f =
      some (.ok (.owned [Char.ofNat v]))) ∧
    expand_entities "&#X6F;".toList (fun n =>
      if n = "#X6F".toList then some "o".toList else none) =
      some (.ok (.owned "o".toList)) := by
  refine ⟨?_, by decide⟩
  intro f
  obtain ⟨hne, hmem, hval⟩ := natToHexAux_spec (v + 1) v (by omega)
  have hlt32 : v < 2 ^ 32 := by
    simp only [isValidCharCode, Bool.or_eq_true, decide_eq_true_eq,
      Bool.and_eq_true] at hv
    omega
  have hcr := char_ref_hex (natToHex v) v hne hmem hval hv hlt32
  have heocr : entity_or_char_ref ('#' :: 'x' :: (natToHex v ++ [';'])) =
      some ([';'], .chr (Char.ofNat v)) := by
    unfold entity_or_char_ref
    rw [hcr]
  have hwos : withOptSemicolon entity_or_char_ref
      ('#' :: 'x' :: (natToHex v ++ [';'])) = some ([], .chr (Char.ofNat v)) := by
    unfold withOptSemicolon
    rw [heocr]
    rfl
  have hfind : findSub ['&'] ('&' :: '#' :: 'x' :: (natToHex v ++ [';'])) = some 0 := by
    simp [findSub, List.isPrefixOf]
  unfold expand_entities expand_entities_with
  rw [expandLoop_step_chr ('&' :: '#' :: 'x' :: (natToHex v ++ [';'])) ['&']
    entity_or_char_ref f ('&' :: '#' :: 'x' :: (natToHex v ++ [';'])).length
    [] ('&' :: '#' :: 'x' :: (natToHex v ++ [';'])) 0 [] (Char.ofNat v) hfind hwos]
  simp only [List.length_cons]
  rw [expandLoop_step_none _ _ _ _ _ _ []
    (show findSub ['&'] ([] : List Char) = none from rfl)]
  rw [if_neg (by simp)]
  simp

/-- Witness for `char_ref_hex_lowercase_only` at `v = 111` (`o`, hex `6f`). -/
theorem char_ref_hex_lowercase_only_witness :
    isValidCharCode 111 = true ∧
    expand_entities ('&' :: '#' :: 'x' :: (natToHex 111 ++ [';'])) (fun _ => none) =
      some (.ok (.owned [Char.ofNat 111])) :=
  ⟨by decide, (char_ref_hex_lowercase_only 111 (by decide)).1 (fun _ => none)⟩

/-- Counterexample to claim C6 as stated: the uppercase form `&#X6F;` is not
recognized as a character reference (the code's hex branch is the case-sensitive
`tag("x")`); with the always-failing lookup of `expand_characters` it produces
an unresolved-entity error with name `#X6F` instead of resolving to `o`, while
the lowercase form does resolve. -/
theorem char_ref_uppercase_not_recognized :
    expand_characters "&#X6F;".toList = some (.err ⟨"#X6F".toList, ⟨0, 6⟩⟩) ∧
    expand_characters "&#x6f;".toList = some (.ok (.owned "o".toList)) := by
  constructor <;> decide

end Sgmlish
